import Mathlib

/-!
# blockchain-parser: the watch store and its JSON-RPC client

A shallow embedding of `internal/parser/parser.go`.

* Go maps (`map[string]V`) are finite maps with unique keys (`AList`).
* Go errors are represented by their message text.
* `sync.RWMutex` does not appear in the sequential operations: every public
  method holds the lock from its first to its last statement.  The lock is
  modelled explicitly in the interleaving semantics of `Subscribe` at the end
  of the definitions.
* `encoding/json` and `net/http` are libraries outside the repository; their
  functions are parameters of the embedding (`Codec`, `Client`).
* `uint64` values are natural numbers below `2 ^ 64`; Go `int` is the 64-bit
  two's-complement integer of the amd64/arm64 targets.
-/

namespace Parser

/-! ## Data model -/

/-- Go `map[string]V`. -/
abbrev GoMap (V : Type) := AList (fun _ : String => V)

/-- Transaction represents an Ethereum transaction. -/
structure Transaction where
  Hash : String
  From : String
  To : String
  Value : String
  BlockNumber : String
deriving DecidableEq, Repr

/-- Block represents an Ethereum block. -/
structure Block where
  Number : String
  Transactions : List Transaction
deriving DecidableEq, Repr

/-- The zero value `var block Block`. -/
def Block.zero : Block := { Number := "", Transactions := [] }

/-- The fields of `EthereumParser` that hold data: `mu` is the lock (see the
interleaving semantics below) and `client` is the transport, passed to the
operations that use it. -/
structure EthereumParser where
  currentBlock : Int
  subscriptions : GoMap Bool
  transactions : GoMap (List Transaction)
  rpcURL : String
deriving DecidableEq

/-- RPCError as declared in the source: `code` and `message`. -/
structure RPCError where
  Code : Int
  Message : String
deriving DecidableEq, Repr

/-- An element of `params []interface{}`: the source only builds strings and
booleans. -/
inductive Param where
  | str (s : String)
  | bool (b : Bool)
deriving DecidableEq, Repr

/-- The request object `payload` of `callRPC` (a map with these four keys). -/
structure Payload where
  jsonrpc : String
  method : String
  params : List Param
  id : Nat
deriving DecidableEq, Repr

/-- The functions of `encoding/json` that `callRPC` uses. A `json.RawMessage`
is the text of the value it holds. -/
structure Codec where
  /-- The call `json.Marshal(payload)`. -/
  marshal : Payload → Except String String
  /-- The call `json.NewDecoder(resp.Body).Decode(&rpcResponse)` into a
  `map[string]json.RawMessage`. -/
  decodeResponse : String → Except String (GoMap String)
  /-- The call `json.Unmarshal(errorMsg, &rpcErr)`. -/
  unmarshalRPCError : String → Except String RPCError
  /-- The call `json.Unmarshal(raw, &block)` on a zero `Block`. -/
  unmarshalBlock : String → Except String Block

/-- The call `p.client.Post(url, contentType, body)`: the response body, or the
transport error. -/
abbrev Client := String → String → String → Except String String

/-! ## Integer conversions and formatting -/

/-- The conversion `int(blockNumber)` from `uint64` to the 64-bit `int`:
the same 64 bits read as two's complement. -/
def toInt (blockNumber : Nat) : Int :=
  if blockNumber % 2 ^ 64 < 2 ^ 63 then ((blockNumber % 2 ^ 64 : Nat) : Int)
  else ((blockNumber % 2 ^ 64 : Nat) : Int) - 2 ^ 64

/-- The digit table of `fmt`: `0123456789abcdef`. -/
def ldigits : List Char := "0123456789abcdef".data

/-- Table lookup `ldigits[d]`. -/
def hexDigit (d : Nat) : Char := ldigits.getD d '?'

/-- The base-16 loop of `fmt` for `%x`: while `u >= 16` emit `ldigits[u & 0xF]`
in front of the buffer and shift `u` right by four; then emit `ldigits[u]`.
The first argument bounds the number of iterations. -/
def fmtHexLoop : Nat → Nat → List Char → List Char
  | 0, u, buf => hexDigit u :: buf
  | fuel + 1, u, buf =>
    if 16 ≤ u then fmtHexLoop fuel (u / 16) (hexDigit (u % 16) :: buf)
    else hexDigit u :: buf

/-- The digits `%x` prints for a `uint64`: at most sixteen of them. -/
def fmtHex (u : Nat) : List Char := fmtHexLoop 16 u []

/-- The call `fmt.Sprintf("0x%x", blockNumber)`. -/
def sprintf0x (blockNumber : Nat) : String := "0x" ++ String.mk (fmtHex blockNumber)

/-- The call `fmt.Sprintf("%d", n)`. -/
def sprintfD (n : Int) : String := toString n

/-- The value of one hexadecimal digit character, lowercase only. -/
def hexVal (c : Char) : Option Nat :=
  let i := ldigits.indexOf c
  if i < 16 then some i else none

/-- Reads a digit string as a base-16 number, most significant digit first. -/
def readHex (ds : List Char) : Option Nat :=
  ds.foldl (fun acc c => acc.bind (fun a => (hexVal c).map (fun d => a * 16 + d))) (some 0)

/-- The hexadecimal digits of `n` as the specification words them: lowercase,
most significant first, no leading zero, and the single digit `0` for zero. -/
def specHexDigits (n : Nat) : List Char :=
  if n = 0 then ['0'] else (Nat.digits 16 n).reverse.map hexDigit

/-! ## The store's operations -/

/-- NewEthereumParser creates a new instance of EthereumParser. -/
def NewEthereumParser (rpcURL : String) : EthereumParser :=
  { currentBlock := 0, subscriptions := ∅, transactions := ∅, rpcURL := rpcURL }

/-- GetCurrentBlock returns the last parsed block number. -/
def GetCurrentBlock (p : EthereumParser) : Int := p.currentBlock

/-- Subscribe adds an address to the observer list. The result is the new
store and the returned boolean. -/
def Subscribe (p : EthereumParser) (address : String) : EthereumParser × Bool :=
  match p.subscriptions.lookup address with
  | some _ => (p, false)
  | none => ({ p with subscriptions := p.subscriptions.insert address true }, true)

/-- The index expression `m[k]` on a `map[string][]Transaction`: the nil slice
when the key is absent. -/
def txIndex (m : GoMap (List Transaction)) (k : String) : List Transaction :=
  (m.lookup k).getD []

/-- The index expression `m[k]` on a `map[string]bool`: `false` when the key is
absent. -/
def subIndex (m : GoMap Bool) (k : String) : Bool :=
  (m.lookup k).getD false

/-- GetTransactions returns a list of inbound or outbound transactions for an
address. -/
def GetTransactions (p : EthereumParser) (address : String) : List Transaction :=
  txIndex p.transactions address

/-- The request object built at the top of `callRPC`. -/
def rpcPayload (method : String) (params : List Param) : Payload :=
  { jsonrpc := "2.0", method := method, params := params, id := 1 }

/-- The function `callRPC`: a helper to make JSON-RPC calls. The argument
`unmarshalResult` is `json.Unmarshal(·, result)` for the caller's `result`. -/
def callRPC {α : Type} (json : Codec) (client : Client) (rpcURL : String)
    (method : String) (params : List Param)
    (unmarshalResult : String → Except String α) : Except String α :=
  match json.marshal (rpcPayload method params) with
  | .error err => .error ("JSON Marshal Error: " ++ err)
  | .ok payloadBytes =>
    match client rpcURL "application/json" payloadBytes with
    | .error err => .error ("RPC Error: " ++ err)
    | .ok body =>
      match json.decodeResponse body with
      | .error err => .error ("JSON Decode Error: " ++ err)
      | .ok rpcResponse =>
        match rpcResponse.lookup "error" with
        | some errorMsg =>
          match json.unmarshalRPCError errorMsg with
          | .error _ => .error ("RPC Error: " ++ errorMsg)
          | .ok rpcErr =>
            .error ("RPC Error " ++ sprintfD rpcErr.Code ++ ": " ++ rpcErr.Message)
        | none => unmarshalResult ((rpcResponse.lookup "result").getD "")

/-- The `params` slice built by `getBlockByNumber`. -/
def getBlockByNumberParams (blockNumber : Nat) : List Param :=
  [Param.str (sprintf0x blockNumber), Param.bool true]

/-- The function `getBlockByNumber`: fetches a block by its number using
Ethereum JSON-RPC. -/
def getBlockByNumber (json : Codec) (client : Client) (rpcURL : String)
    (blockNumber : Nat) : Except String Block :=
  callRPC json client rpcURL "eth_getBlockByNumber" (getBlockByNumberParams blockNumber)
    json.unmarshalBlock

/-- One iteration of the loop of `ParseBlock` over `block.Transactions`. -/
def recordTx (subs : GoMap Bool) (txs : GoMap (List Transaction)) (tx : Transaction) :
    GoMap (List Transaction) :=
  let txs1 := if subIndex subs tx.From then txs.insert tx.From (txIndex txs tx.From ++ [tx])
    else txs
  if subIndex subs tx.To then txs1.insert tx.To (txIndex txs1 tx.To ++ [tx]) else txs1

/-- The mutation phase of `ParseBlock`, after a successful fetch. -/
def commitBlock (p : EthereumParser) (block : Block) (blockNumber : Nat) : EthereumParser :=
  { p with
    transactions := block.Transactions.foldl (recordTx p.subscriptions) p.transactions
    currentBlock := toInt blockNumber }

/-- ParseBlock fetches and parses a block for transactions involving subscribed
addresses. The result is the new store and the returned error (`none` is
`nil`). -/
def ParseBlock (json : Codec) (client : Client) (p : EthereumParser) (blockNumber : Nat) :
    EthereumParser × Option String :=
  match getBlockByNumber json client p.rpcURL blockNumber with
  | .error err => (p, some ("failed to get block: " ++ err))
  | .ok block => (commitBlock p block blockNumber, none)

/-! ## Call sequences -/

/-- A run of `Subscribe` calls, one after the other: the final store and the
returned booleans in call order. -/
def subscribeAll (p : EthereumParser) : List String → EthereumParser × List Bool
  | [] => (p, [])
  | a :: rest =>
    let r := Subscribe p a
    let rs := subscribeAll r.1 rest
    (rs.1, r.2 :: rs.2)

/-- A call on the store that changes it. A `ParseBlock` call carries the codec
and the transport it runs against, so that every call may see a different
answer from the endpoint. -/
inductive Op where
  | subscribe (address : String)
  | parseBlock (json : Codec) (client : Client) (blockNumber : Nat)

/-- The store after one call. -/
def Op.apply (p : EthereumParser) : Op → EthereumParser
  | .subscribe address => (Subscribe p address).1
  | .parseBlock json client blockNumber => (ParseBlock json client p blockNumber).1

/-- The store reached from a fresh one by a sequence of calls. -/
def run (rpcURL : String) (ops : List Op) : EthereumParser :=
  ops.foldl Op.apply (NewEthereumParser rpcURL)

/-- Whether the call is `Subscribe(a)`. -/
def Op.isSubscribe (a : String) : Op → Bool
  | .subscribe address => address == a
  | .parseBlock _ _ _ => false

/-- Whether the transaction has `a` as its sender or its recipient. -/
def touches (a : String) (tx : Transaction) : Bool := tx.From == a || tx.To == a

/-- Whether the call, made on store `p`, is a `ParseBlock` whose fetch succeeds
with a block that has a transaction from or to `a` while `a` is subscribed. -/
def Op.matchedAt (p : EthereumParser) (a : String) : Op → Bool
  | .subscribe _ => false
  | .parseBlock json client blockNumber =>
    match getBlockByNumber json client p.rpcURL blockNumber with
    | .error _ => false
    | .ok block => subIndex p.subscriptions a && block.Transactions.any (touches a)

/-- Whether `a` matched in some call of the sequence, started on store `p`. -/
def everMatched (a : String) : EthereumParser → List Op → Bool
  | _, [] => false
  | p, op :: ops => op.matchedAt p a || everMatched a (op.apply p) ops

/-- What one transaction of a block adds to the history of address `a`, given
the subscription map: the transaction once for a subscribed sender `a` and once
for a subscribed recipient `a`. -/
def contribution (subs : GoMap Bool) (a : String) (tx : Transaction) : List Transaction :=
  (if tx.From = a ∧ subIndex subs a = true then [tx] else []) ++
  (if tx.To = a ∧ subIndex subs a = true then [tx] else [])

/-- The number of entries of a history with the given hash. -/
def countHash (h : String) (txs : List Transaction) : Nat :=
  txs.countP (fun tx => tx.Hash == h)

/-- Every flag stored in the subscription map is `true`: the two membership
tests of the source (`_, exists := m[k]` and `m[k]`) agree. -/
def FlagsTrue (p : EthereumParser) : Prop :=
  ∀ a v, p.subscriptions.lookup a = some v → v = true

/-! ## Interleaved `Subscribe` calls under the lock -/

/-- Where a `Subscribe` call stands: before `p.mu.Lock()`, before the
membership test, before the map store, before the deferred `p.mu.Unlock()` with
the return value fixed, or returned. -/
inductive Pc where
  | atLock
  | atCheck
  | atStore
  | atUnlock (ret : Bool)
  | done (ret : Bool)
deriving DecidableEq, Repr

/-- Whether the call holds the exclusive lock. -/
def Pc.critical : Pc → Bool
  | .atCheck => true
  | .atStore => true
  | .atUnlock _ => true
  | _ => false

/-- The store shared by the calls, the state of the exclusive lock, and the
position of every call. -/
structure Sys where
  store : EthereumParser
  locked : Bool
  pc : Nat → Pc

/-- All calls are about to start on store `p`. -/
def Sys.init (p : EthereumParser) : Sys :=
  { store := p, locked := false, pc := fun _ => Pc.atLock }

/-- One atomic step of call `i`, which is `Subscribe(address)`; `none` when the
call cannot move (it waits for the lock, or it has returned). -/
def stepCall (s : Sys) (i : Nat) (address : String) : Option Sys :=
  match s.pc i with
  | .atLock =>
    if s.locked then none
    else some { s with locked := true, pc := Function.update s.pc i Pc.atCheck }
  | .atCheck =>
    match s.store.subscriptions.lookup address with
    | some _ => some { s with pc := Function.update s.pc i (Pc.atUnlock false) }
    | none => some { s with pc := Function.update s.pc i Pc.atStore }
  | .atStore =>
    some { s with
      store := { s.store with subscriptions := s.store.subscriptions.insert address true }
      pc := Function.update s.pc i (Pc.atUnlock true) }
  | .atUnlock ret => some { s with locked := false, pc := Function.update s.pc i (Pc.done ret) }
  | .done _ => none

/-- The scheduler picks call `i` of the calls `Subscribe(addrs[i])`; a pick
that cannot move leaves the system as it is. -/
def step (addrs : List String) (s : Sys) (i : Nat) : Sys :=
  match addrs[i]? with
  | none => s
  | some address => (stepCall s i address).getD s

/-- The system after a schedule, a sequence of picks. -/
def exec (addrs : List String) (s : Sys) (sched : List Nat) : Sys :=
  sched.foldl (step addrs) s

/-- The schedule that runs the calls one after the other in index order, four
steps each. -/
def serialSchedule (n : Nat) : List Nat :=
  (List.range n).flatMap (fun i => [i, i, i, i])

/-- The invariant of interleaved `Subscribe` calls started on store `p`: the
address of a call that has not stored yet is absent; a call past its store
returns true and its address is present; nobody is between `Lock` and `Unlock`
while the lock is free, and at most one call ever is; and the store is what the
calls past their store leave when run one after the other in some order. -/
structure LockInv (p : EthereumParser) (addrs : List String) (s : Sys) : Prop where
  pending : ∀ i a, addrs[i]? = some a →
    (s.pc i = Pc.atLock ∨ s.pc i = Pc.atCheck ∨ s.pc i = Pc.atStore) →
    a ∉ s.store.subscriptions
  stored : ∀ i a ret, addrs[i]? = some a →
    (s.pc i = Pc.atUnlock ret ∨ s.pc i = Pc.done ret) →
    ret = true ∧ a ∈ s.store.subscriptions
  free : s.locked = false → ∀ i, (s.pc i).critical = false
  exclusive : ∀ i j, (s.pc i).critical = true → (s.pc j).critical = true → i = j
  serial : ∃ order : List String, order.Nodup ∧
    (∀ a, a ∈ order ↔ ∃ i ret, addrs[i]? = some a ∧
      (s.pc i = Pc.atUnlock ret ∨ s.pc i = Pc.done ret)) ∧
    s.store = (subscribeAll p order).1

/-- Three distinct addresses for three concurrent calls. -/
def raceAddrs : List String := ["0x1111", "0x2222", "0x3333"]

/-- A schedule in which call 1 wins the lock, then call 0, then call 2, with
picks of waiting calls in between. -/
def raceSchedule : List Nat := [1, 0, 2, 1, 0, 1, 2, 1, 0, 2, 2, 0, 2, 0, 2, 0, 2, 2, 2, 2]

/-! ## The mock endpoint of `parser_test.go` -/

/-- The transaction served by `mockEthereumRPCResponse`. -/
def mockTx : Transaction :=
  { Hash := "0xabc123", From := "0x1234", To := "0x5678",
    Value := "1000000000000000000", BlockNumber := "1" }

/-- The block served by `mockEthereumRPCResponse`. -/
def mockBlock : Block := { Number := "0x1", Transactions := [mockTx] }

/-- The body of the default answer of the mock: an `error` member holding a
bare string. -/
def mockErrorBody : String := "\x7b\"error\": \"Invalid request\"\x7d"

/-- The body of an answer whose `error` member is an object with `code` and
`message`, next to a `result` member. -/
def mockErrorObjectBody : String :=
  "\x7b\"error\": \x7b\"code\": -32602, \"message\": \"invalid argument\"\x7d, \"result\": null\x7d"

/-- A codec for the bodies of the mock endpoint, which serves `block` as its
result: it decodes exactly the texts the mock sends. -/
def mockCodec (block : Block) : Codec :=
  { marshal := fun payload => .ok payload.method
    decodeResponse := fun body =>
      if body = "result" then
        .ok (AList.insert "result" "block" (AList.insert "jsonrpc" "\"2.0\"" ∅))
      else if body = mockErrorBody then
        .ok (AList.insert "error" "\"Invalid request\"" ∅)
      else if body = mockErrorObjectBody then
        .ok (AList.insert "error" "object" (AList.insert "result" "null" ∅))
      else .error "invalid character"
    unmarshalRPCError := fun raw =>
      if raw = "object" then .ok { Code := -32602, Message := "invalid argument" }
      else .error "json: cannot unmarshal string into Go value of type parser.RPCError"
    unmarshalBlock := fun raw =>
      if raw = "block" then .ok block
      else if raw = "null" then .ok Block.zero
      else .error "unexpected end of JSON input" }

/-- The mock endpoint: a block for `eth_getBlockByNumber`, the error body for
every other request. -/
def mockClient : Client := fun _ _ body =>
  if body = "eth_getBlockByNumber" then .ok "result" else .ok mockErrorBody

/-- An endpoint that answers every request with the error body. -/
def errorClient : Client := fun _ _ _ => .ok mockErrorBody

/-- An endpoint that answers every request with the error object body. -/
def errorObjectClient : Client := fun _ _ _ => .ok mockErrorObjectBody

/-- An endpoint that cannot be reached. -/
def downClient : Client := fun _ _ _ => .error "connection refused"

/-- The store of `TestParseBlock` before the parse: both addresses of the
mock transaction subscribed. -/
def testStore : EthereumParser :=
  (Subscribe (Subscribe (NewEthereumParser "mock") "0x1234").1 "0x5678").1

/-- A transaction from an address to itself. -/
def selfTx : Transaction :=
  { Hash := "0xself", From := "0x1234", To := "0x1234", Value := "1", BlockNumber := "1" }

/-- The store of `TestParseBlock` after its parse of block 1. -/
def parsedOnce : EthereumParser :=
  (ParseBlock (mockCodec mockBlock) mockClient testStore 1).1

/-- The fetch of block `blockNumber` fails for one of the reasons `callRPC`
distinguishes after the request is built: the transport fails, the body does not
decode, the response has an `error` member, or the `result` member does not
decode into a block. -/
def FetchFails (json : Codec) (client : Client) (rpcURL : String) (blockNumber : Nat) : Prop :=
  ∃ payloadBytes,
    json.marshal (rpcPayload "eth_getBlockByNumber" (getBlockByNumberParams blockNumber)) =
      .ok payloadBytes ∧
    ((∃ err, client rpcURL "application/json" payloadBytes = .error err) ∨
      ∃ body, client rpcURL "application/json" payloadBytes = .ok body ∧
        ((∃ err, json.decodeResponse body = .error err) ∨
          ∃ rpcResponse, json.decodeResponse body = .ok rpcResponse ∧
            ((∃ errorMsg, rpcResponse.lookup "error" = some errorMsg) ∨
              (rpcResponse.lookup "error" = none ∧
                ∃ err, json.unmarshalBlock ((rpcResponse.lookup "result").getD "") =
                  .error err))))

/-! ## Histories after a parse -/

theorem txIndex_insert (m : GoMap (List Transaction)) (k a : String) (v : List Transaction) :
    txIndex (m.insert k v) a = if a = k then v else txIndex m a := by
  unfold txIndex
  by_cases h : a = k
  · subst h
    simp
  · simp [h, AList.lookup_insert_ne h]

theorem txIndex_recordTx (subs : GoMap Bool) (txs : GoMap (List Transaction))
    (tx : Transaction) (a : String) :
    txIndex (recordTx subs txs tx) a = txIndex txs a ++ contribution subs a tx := by
  unfold recordTx contribution
  by_cases hf : tx.From = a
  · subst hf
    by_cases ht : tx.To = tx.From
    · rw [ht]
      cases hsf : subIndex subs tx.From <;> simp [txIndex_insert]
    · have ht2 : ¬ tx.From = tx.To := fun h => ht h.symm
      cases hsf : subIndex subs tx.From <;> cases hst : subIndex subs tx.To <;>
        simp [txIndex_insert, ht, ht2]
  · have hf2 : ¬ a = tx.From := fun h => hf h.symm
    by_cases ht : tx.To = a
    · subst ht
      cases hsf : subIndex subs tx.From <;> cases hst : subIndex subs tx.To <;>
        simp [txIndex_insert, hf, hf2]
    · have ht2 : ¬ a = tx.To := fun h => ht h.symm
      cases hsf : subIndex subs tx.From <;> cases hst : subIndex subs tx.To <;>
        simp [txIndex_insert, hf, hf2, ht, ht2]

theorem txIndex_foldl_recordTx (subs : GoMap Bool) (l : List Transaction) :
    ∀ (txs : GoMap (List Transaction)) (a : String),
      txIndex (l.foldl (recordTx subs) txs) a =
        txIndex txs a ++ l.flatMap (contribution subs a) := by
  induction l with
  | nil => intro txs a; simp
  | cons tx rest ih =>
    intro txs a
    simp [List.foldl_cons, ih, txIndex_recordTx, List.append_assoc]

theorem ParseBlock_ok (json : Codec) (client : Client) (p : EthereumParser)
    (blockNumber : Nat) (block : Block)
    (hfetch : getBlockByNumber json client p.rpcURL blockNumber = .ok block) :
    ParseBlock json client p blockNumber = (commitBlock p block blockNumber, none) := by
  simp [ParseBlock, hfetch]

theorem GetTransactions_commitBlock (p : EthereumParser) (block : Block) (blockNumber : Nat)
    (a : String) :
    GetTransactions (commitBlock p block blockNumber) a =
      GetTransactions p a ++ block.Transactions.flatMap (contribution p.subscriptions a) := by
  simp [GetTransactions, commitBlock, txIndex_foldl_recordTx]

theorem flatMap_contribution_nil (subs : GoMap Bool) (a : String) (l : List Transaction)
    (hno : ∀ tx ∈ l, ¬ (touches a tx = true ∧ subIndex subs a = true)) :
    l.flatMap (contribution subs a) = [] := by
  rw [List.flatMap_eq_nil_iff]
  intro tx htx
  have h := hno tx htx
  unfold contribution
  unfold touches at h
  by_cases hs : subIndex subs a = true
  · have hf : ¬ tx.From = a := fun e => h ⟨by simp [e], hs⟩
    have ht : ¬ tx.To = a := fun e => h ⟨by simp [e], hs⟩
    simp [hf, ht]
  · simp [hs]

/-- C5: after a successful parse the history of every address `a` is its old
history followed by, in block order, each transaction once if its sender is `a`
and `a` is subscribed and once more if its recipient is `a` and `a` is
subscribed; the old history is a prefix of the new one, and an address that
matches no transaction keeps its history. -/
theorem ParseBlock_appends_contributions (json : Codec) (client : Client)
    (p : EthereumParser) (blockNumber : Nat) (block : Block) (a : String)
    (hfetch : getBlockByNumber json client p.rpcURL blockNumber = .ok block) :
    GetTransactions (ParseBlock json client p blockNumber).1 a =
        GetTransactions p a ++ block.Transactions.flatMap (contribution p.subscriptions a)
    ∧ GetTransactions p a <+: GetTransactions (ParseBlock json client p blockNumber).1 a
    ∧ ((∀ tx ∈ block.Transactions,
          ¬ (touches a tx = true ∧ subIndex p.subscriptions a = true)) →
        GetTransactions (ParseBlock json client p blockNumber).1 a = GetTransactions p a) := by
  rw [ParseBlock_ok json client p blockNumber block hfetch]
  have hmain := GetTransactions_commitBlock p block blockNumber a
  refine ⟨hmain, ?_, ?_⟩
  · rw [hmain]
    exact List.prefix_append _ _
  · intro hno
    rw [hmain, flatMap_contribution_nil p.subscriptions a block.Transactions hno,
      List.append_nil]

/-- An instance of the preceding theorem: the recipient of the mock
transaction in `TestParseBlock`. -/
theorem ParseBlock_appends_contributions_witness :
    getBlockByNumber (mockCodec mockBlock) mockClient testStore.rpcURL 1 = .ok mockBlock ∧
    GetTransactions (ParseBlock (mockCodec mockBlock) mockClient testStore 1).1 "0x5678" =
        GetTransactions testStore "0x5678" ++
          mockBlock.Transactions.flatMap (contribution testStore.subscriptions "0x5678")
    ∧ GetTransactions testStore "0x5678" <+:
        GetTransactions (ParseBlock (mockCodec mockBlock) mockClient testStore 1).1 "0x5678"
    ∧ ((∀ tx ∈ mockBlock.Transactions,
          ¬ (touches "0x5678" tx = true ∧ subIndex testStore.subscriptions "0x5678" = true)) →
        GetTransactions (ParseBlock (mockCodec mockBlock) mockClient testStore 1).1 "0x5678" =
          GetTransactions testStore "0x5678") :=
  ⟨rfl, ParseBlock_appends_contributions (mockCodec mockBlock) mockClient testStore 1 mockBlock
    "0x5678" rfl⟩

/-- C7: for a subscribed address `A`, a successful parse of a block whose only
transaction `t` has sender and recipient `A` appends `t` twice to the history
of `A`, which grows by exactly two entries. -/
theorem ParseBlock_self_transaction_twice (json : Codec) (client : Client)
    (p : EthereumParser) (blockNumber : Nat) (block : Block) (t : Transaction) (A : String)
    (hfetch : getBlockByNumber json client p.rpcURL blockNumber = .ok block)
    (honly : block.Transactions = [t]) (hfrom : t.From = A) (hto : t.To = A)
    (hsub : subIndex p.subscriptions A = true) :
    GetTransactions (ParseBlock json client p blockNumber).1 A = GetTransactions p A ++ [t, t]
    ∧ (GetTransactions (ParseBlock json client p blockNumber).1 A).length =
        (GetTransactions p A).length + 2 := by
  have h : GetTransactions (ParseBlock json client p blockNumber).1 A =
      GetTransactions p A ++ [t, t] := by
    rw [ParseBlock_ok json client p blockNumber block hfetch,
      GetTransactions_commitBlock, honly]
    simp [contribution, hfrom, hto, hsub]
  exact ⟨h, by rw [h]; simp⟩

/-- An instance of the preceding theorem on a mock endpoint that serves one
self-transaction. -/
theorem ParseBlock_self_transaction_twice_witness :
    getBlockByNumber (mockCodec ⟨"0x1", [selfTx]⟩) mockClient testStore.rpcURL 1 =
        .ok ⟨"0x1", [selfTx]⟩
    ∧ subIndex testStore.subscriptions "0x1234" = true
    ∧ GetTransactions (ParseBlock (mockCodec ⟨"0x1", [selfTx]⟩) mockClient testStore 1).1
          "0x1234" = GetTransactions testStore "0x1234" ++ [selfTx, selfTx]
    ∧ (GetTransactions (ParseBlock (mockCodec ⟨"0x1", [selfTx]⟩) mockClient testStore 1).1
          "0x1234").length = (GetTransactions testStore "0x1234").length + 2 :=
  ⟨rfl, by decide,
    ParseBlock_self_transaction_twice (mockCodec ⟨"0x1", [selfTx]⟩) mockClient testStore 1
      ⟨"0x1", [selfTx]⟩ selfTx "0x1234" rfl rfl rfl rfl (by decide)⟩

/-! ## Entries with a given hash -/

theorem countHash_append (h : String) (l₁ l₂ : List Transaction) :
    countHash h (l₁ ++ l₂) = countHash h l₁ + countHash h l₂ := by
  simp [countHash, List.countP_append]

theorem countHash_contribution_of_ne (subs : GoMap Bool) (a h : String) (tx : Transaction)
    (hne : tx.Hash ≠ h) : countHash h (contribution subs a tx) = 0 := by
  unfold contribution countHash
  by_cases h1 : tx.From = a ∧ subIndex subs a = true <;>
    by_cases h2 : tx.To = a ∧ subIndex subs a = true <;> simp [h1, h2, hne]

theorem countHash_eq_zero_iff (h : String) (l : List Transaction) :
    countHash h l = 0 ↔ ∀ tx ∈ l, tx.Hash ≠ h := by
  simp [countHash, List.countP_eq_zero]

theorem countHash_flatMap_zero (subs : GoMap Bool) (a h : String) (l : List Transaction)
    (hz : countHash h l = 0) : countHash h (l.flatMap (contribution subs a)) = 0 := by
  induction l with
  | nil => simp [countHash]
  | cons x rest ih =>
    rw [countHash_eq_zero_iff] at hz
    have hx : x.Hash ≠ h := hz x (List.mem_cons_self _ _)
    have hrest : countHash h rest = 0 := by
      rw [countHash_eq_zero_iff]
      intro tx htx
      exact hz tx (List.mem_cons_of_mem _ htx)
    rw [List.flatMap_cons, countHash_append, countHash_contribution_of_ne subs a h x hx,
      ih hrest]

theorem countHash_flatMap_one (subs : GoMap Bool) (a h : String) (t : Transaction)
    (ht : t.Hash = h) (l : List Transaction) (hone : countHash h l = 1) (hmem : t ∈ l) :
    countHash h (l.flatMap (contribution subs a)) = countHash h (contribution subs a t) := by
  induction l with
  | nil => simp at hmem
  | cons x rest ih =>
    rw [List.flatMap_cons, countHash_append]
    by_cases hx : x.Hash = h
    · have hrest : countHash h rest = 0 := by
        have := hone
        simp only [countHash, List.countP_cons, hx, beq_self_eq_true, if_true] at this
        simpa [countHash] using this
      have htx : t = x := by
        rcases List.mem_cons.mp hmem with e | hin
        · exact e
        · exact absurd ht ((countHash_eq_zero_iff h rest).mp hrest t hin)
      rw [countHash_flatMap_zero subs a h rest hrest, htx, Nat.add_zero]
    · have hrest : countHash h rest = 1 := by
        have := hone
        simpa [countHash, List.countP_cons, hx] using this
      have hin : t ∈ rest := by
        rcases List.mem_cons.mp hmem with e | hin
        · exact absurd (e ▸ ht) hx
        · exact hin
      rw [countHash_contribution_of_ne subs a h x hx, ih hrest hin, Nat.zero_add]

/-- C1, as amended: with `A` and `B` distinct and both subscribed, no entry with
the hash of `t` in either history before the call, and `t` the only transaction
of the block with that hash, after a successful parse the histories of `A` and
of `B` each hold exactly one entry with the hash of `t`. -/
theorem ParseBlock_one_entry_per_side (json : Codec) (client : Client)
    (p : EthereumParser) (blockNumber : Nat) (block : Block) (t : Transaction) (A B : String)
    (hfetch : getBlockByNumber json client p.rpcURL blockNumber = .ok block)
    (hmem : t ∈ block.Transactions) (hfrom : t.From = A) (hto : t.To = B)
    (hsubA : subIndex p.subscriptions A = true) (hsubB : subIndex p.subscriptions B = true)
    (hAB : A ≠ B)
    (hfreshA : countHash t.Hash (GetTransactions p A) = 0)
    (hfreshB : countHash t.Hash (GetTransactions p B) = 0)
    (honly : countHash t.Hash block.Transactions = 1) :
    countHash t.Hash (GetTransactions (ParseBlock json client p blockNumber).1 A) = 1
    ∧ countHash t.Hash (GetTransactions (ParseBlock json client p blockNumber).1 B) = 1 := by
  rw [ParseBlock_ok json client p blockNumber block hfetch]
  have hBA : ¬ B = A := fun e => hAB e.symm
  constructor
  · rw [GetTransactions_commitBlock, countHash_append, hfreshA,
      countHash_flatMap_one p.subscriptions A t.Hash t rfl block.Transactions honly hmem]
    simp [contribution, countHash, hfrom, hto, hsubA, hBA]
  · rw [GetTransactions_commitBlock, countHash_append, hfreshB,
      countHash_flatMap_one p.subscriptions B t.Hash t rfl block.Transactions honly hmem]
    simp [contribution, countHash, hfrom, hto, hsubB, hAB]

/-- An instance of the preceding theorem: the parse of `TestParseBlock`. -/
theorem ParseBlock_one_entry_per_side_witness :
    getBlockByNumber (mockCodec mockBlock) mockClient testStore.rpcURL 1 = .ok mockBlock
    ∧ countHash mockTx.Hash
        (GetTransactions (ParseBlock (mockCodec mockBlock) mockClient testStore 1).1 "0x1234") = 1
    ∧ countHash mockTx.Hash
        (GetTransactions (ParseBlock (mockCodec mockBlock) mockClient testStore 1).1 "0x5678") = 1 :=
  ⟨rfl, ParseBlock_one_entry_per_side (mockCodec mockBlock) mockClient testStore 1 mockBlock
    mockTx "0x1234" "0x5678" rfl (by decide) rfl rfl (by decide) (by decide) (by decide)
    (by decide) (by decide) (by decide)⟩

/-- C1 fails as stated in three ways, each with every address subscribed and
the fetch successful: parsing the block of `TestParseBlock` a second time
leaves two entries with the hash in the history of the sender and of the
recipient; a transaction from an address to itself leaves two entries; and a
block that lists the transaction twice leaves two entries. -/
theorem ParseBlock_one_entry_counterexample :
    (getBlockByNumber (mockCodec mockBlock) mockClient parsedOnce.rpcURL 1 = .ok mockBlock
      ∧ mockTx ∈ mockBlock.Transactions
      ∧ subIndex parsedOnce.subscriptions mockTx.From = true
      ∧ subIndex parsedOnce.subscriptions mockTx.To = true
      ∧ countHash mockTx.Hash (GetTransactions
          (ParseBlock (mockCodec mockBlock) mockClient parsedOnce 1).1 mockTx.From) = 2
      ∧ countHash mockTx.Hash (GetTransactions
          (ParseBlock (mockCodec mockBlock) mockClient parsedOnce 1).1 mockTx.To) = 2)
    ∧ (getBlockByNumber (mockCodec ⟨"0x1", [selfTx]⟩) mockClient testStore.rpcURL 1 =
          .ok ⟨"0x1", [selfTx]⟩
      ∧ subIndex testStore.subscriptions selfTx.From = true
      ∧ subIndex testStore.subscriptions selfTx.To = true
      ∧ countHash selfTx.Hash (GetTransactions testStore selfTx.From) = 0
      ∧ countHash selfTx.Hash (GetTransactions
          (ParseBlock (mockCodec ⟨"0x1", [selfTx]⟩) mockClient testStore 1).1 selfTx.From) = 2)
    ∧ (getBlockByNumber (mockCodec ⟨"0x1", [mockTx, mockTx]⟩) mockClient testStore.rpcURL 1 =
          .ok ⟨"0x1", [mockTx, mockTx]⟩
      ∧ countHash mockTx.Hash (GetTransactions testStore mockTx.From) = 0
      ∧ countHash mockTx.Hash (GetTransactions
          (ParseBlock (mockCodec ⟨"0x1", [mockTx, mockTx]⟩) mockClient testStore 1).1
            mockTx.From) = 2) := by
  refine ⟨⟨rfl, by decide, by decide, by decide, by decide, by decide⟩,
    ⟨rfl, by decide, by decide, by decide, by decide⟩, ⟨rfl, by decide, by decide⟩⟩

/-! ## Failed fetches -/

theorem getBlockByNumber_error_of_fetchFails (json : Codec) (client : Client)
    (rpcURL : String) (blockNumber : Nat) (hfail : FetchFails json client rpcURL blockNumber) :
    ∃ err, getBlockByNumber json client rpcURL blockNumber = .error err := by
  obtain ⟨payloadBytes, hm, hcause⟩ := hfail
  unfold getBlockByNumber callRPC
  rw [hm]
  rcases hcause with ⟨err, hpost⟩ | ⟨body, hpost, hcause⟩
  · simp only [hpost]
    exact ⟨_, rfl⟩
  · rcases hcause with ⟨err, hdec⟩ | ⟨rpcResponse, hdec, hcause⟩
    · simp only [hpost, hdec]
      exact ⟨_, rfl⟩
    · rcases hcause with ⟨errorMsg, herr⟩ | ⟨hnone, err, hres⟩
      · simp only [hpost, hdec, herr]
        cases json.unmarshalRPCError errorMsg <;> exact ⟨_, rfl⟩
      · simp only [hpost, hdec, hnone, hres]
        exact ⟨_, rfl⟩

/-- C3: when the fetch fails, `ParseBlock` returns an error (the fetch error
wrapped in `failed to get block: `) and the store it leaves is the store before
the call: block pointer, histories and subscriptions are untouched. A transport
error, an undecodable body, an `error` member in the response and an undecodable
result each make the fetch fail. -/
theorem ParseBlock_failed_fetch_keeps_store (json : Codec) (client : Client)
    (p : EthereumParser) (blockNumber : Nat) :
    (∀ err, getBlockByNumber json client p.rpcURL blockNumber = .error err →
        ParseBlock json client p blockNumber = (p, some ("failed to get block: " ++ err)))
    ∧ (FetchFails json client p.rpcURL blockNumber →
        ∃ err, getBlockByNumber json client p.rpcURL blockNumber = .error err
          ∧ ParseBlock json client p blockNumber = (p, some ("failed to get block: " ++ err))
          ∧ GetCurrentBlock (ParseBlock json client p blockNumber).1 = GetCurrentBlock p
          ∧ (∀ a, GetTransactions (ParseBlock json client p blockNumber).1 a =
              GetTransactions p a)
          ∧ (ParseBlock json client p blockNumber).1.subscriptions = p.subscriptions) := by
  have hgen : ∀ err, getBlockByNumber json client p.rpcURL blockNumber = .error err →
      ParseBlock json client p blockNumber = (p, some ("failed to get block: " ++ err)) := by
    intro err herr
    simp [ParseBlock, herr]
  refine ⟨hgen, ?_⟩
  intro hfail
  obtain ⟨err, herr⟩ := getBlockByNumber_error_of_fetchFails json client p.rpcURL blockNumber hfail
  have hp := hgen err herr
  exact ⟨err, herr, hp, by rw [hp], by intro a; rw [hp], by rw [hp]⟩

/-- An instance of the preceding theorem on the parsed store of
`TestParseBlock`: against an endpoint that answers with the error body of the
mock, and against an endpoint that cannot be reached. -/
theorem ParseBlock_failed_fetch_keeps_store_witness :
    getBlockByNumber (mockCodec mockBlock) errorClient parsedOnce.rpcURL 2 =
        .error "RPC Error: \"Invalid request\""
    ∧ ParseBlock (mockCodec mockBlock) errorClient parsedOnce 2 =
        (parsedOnce, some ("failed to get block: " ++ "RPC Error: \"Invalid request\""))
    ∧ FetchFails (mockCodec mockBlock) downClient parsedOnce.rpcURL 2
    ∧ (∃ err, getBlockByNumber (mockCodec mockBlock) downClient parsedOnce.rpcURL 2 = .error err
        ∧ ParseBlock (mockCodec mockBlock) downClient parsedOnce 2 =
            (parsedOnce, some ("failed to get block: " ++ err))
        ∧ GetCurrentBlock (ParseBlock (mockCodec mockBlock) downClient parsedOnce 2).1 =
            GetCurrentBlock parsedOnce
        ∧ (∀ a, GetTransactions (ParseBlock (mockCodec mockBlock) downClient parsedOnce 2).1 a =
            GetTransactions parsedOnce a)
        ∧ (ParseBlock (mockCodec mockBlock) downClient parsedOnce 2).1.subscriptions =
            parsedOnce.subscriptions) :=
  ⟨rfl, (ParseBlock_failed_fetch_keeps_store (mockCodec mockBlock) errorClient parsedOnce 2).1
    "RPC Error: \"Invalid request\"" rfl,
    ⟨"eth_getBlockByNumber", rfl, Or.inl ⟨"connection refused", rfl⟩⟩,
    (ParseBlock_failed_fetch_keeps_store (mockCodec mockBlock) downClient parsedOnce 2).2
      ⟨"eth_getBlockByNumber", rfl, Or.inl ⟨"connection refused", rfl⟩⟩⟩

/-! ## The block pointer -/

theorem toInt_of_lt (blockNumber : Nat) (h : blockNumber < 2 ^ 63) :
    toInt blockNumber = (blockNumber : Int) := by
  have h64 : blockNumber % 2 ^ 64 = blockNumber := Nat.mod_eq_of_lt (by omega)
  unfold toInt
  rw [h64, if_pos h]

theorem GetCurrentBlock_ParseBlock_of_lt (json : Codec) (client : Client)
    (p : EthereumParser) (blockNumber : Nat) (block : Block)
    (hfetch : getBlockByNumber json client p.rpcURL blockNumber = .ok block)
    (h : blockNumber < 2 ^ 63) :
    GetCurrentBlock (ParseBlock json client p blockNumber).1 = (blockNumber : Int) := by
  rw [ParseBlock_ok json client p blockNumber block hfetch]
  simp [GetCurrentBlock, commitBlock, toInt_of_lt blockNumber h]

/-- C4 fails on the code: for the block number `2 ^ 63`, a `uint64` that
`ParseBlock` accepts, a successful parse on a fresh store leaves
`GetCurrentBlock` at `-2 ^ 63`, not at the block number. -/
theorem ParseBlock_pointer_wraps_at_2_pow_63 :
    getBlockByNumber (mockCodec mockBlock) mockClient (NewEthereumParser "mock").rpcURL
        9223372036854775808 = .ok mockBlock
    ∧ (ParseBlock (mockCodec mockBlock) mockClient (NewEthereumParser "mock")
        9223372036854775808).2 = none
    ∧ GetCurrentBlock (ParseBlock (mockCodec mockBlock) mockClient (NewEthereumParser "mock")
        9223372036854775808).1 = -9223372036854775808
    ∧ GetCurrentBlock (ParseBlock (mockCodec mockBlock) mockClient (NewEthereumParser "mock")
        9223372036854775808).1 ≠ (9223372036854775808 : Int) := by
  refine ⟨rfl, rfl, by decide, by decide⟩

/-! ## Error responses -/

/-- C8: when the decoded response has an `error` member, `callRPC` fails
whatever decoder is supplied for `result` and whatever the `result` member
holds: with `RPC Error <code>: <message>` when the member decodes into an
`RPCError`, and with `RPC Error: ` followed by the raw member otherwise. -/
theorem callRPC_error_member {α : Type} (json : Codec) (client : Client) (rpcURL : String)
    (method : String) (params : List Param) (payloadBytes body : String)
    (rpcResponse : GoMap String) (errorMsg : String)
    (hmarshal : json.marshal (rpcPayload method params) = .ok payloadBytes)
    (hpost : client rpcURL "application/json" payloadBytes = .ok body)
    (hdecode : json.decodeResponse body = .ok rpcResponse)
    (herror : rpcResponse.lookup "error" = some errorMsg) :
    ∀ unmarshalResult : String → Except String α,
      callRPC json client rpcURL method params unmarshalResult =
        .error (match json.unmarshalRPCError errorMsg with
          | .ok rpcErr => "RPC Error " ++ sprintfD rpcErr.Code ++ ": " ++ rpcErr.Message
          | .error _ => "RPC Error: " ++ errorMsg) := by
  intro unmarshalResult
  unfold callRPC
  rw [hmarshal]
  simp only [hpost, hdecode, herror]
  cases json.unmarshalRPCError errorMsg <;> rfl

/-- An instance of the preceding theorem on the error body of the mock, whose
`error` member is the bare string `"Invalid request"`, for every decoder of
`result`. -/
theorem callRPC_error_member_witness :
    (mockCodec mockBlock).decodeResponse mockErrorBody =
        .ok (AList.insert "error" "\"Invalid request\"" ∅)
    ∧ ∀ unmarshalResult : String → Except String Block,
      callRPC (mockCodec mockBlock) errorClient "mock" "eth_getBlockByNumber"
          (getBlockByNumberParams 1) unmarshalResult =
        .error (match (mockCodec mockBlock).unmarshalRPCError "\"Invalid request\"" with
          | .ok rpcErr => "RPC Error " ++ sprintfD rpcErr.Code ++ ": " ++ rpcErr.Message
          | .error _ => "RPC Error: " ++ "\"Invalid request\"") :=
  ⟨rfl, callRPC_error_member (mockCodec mockBlock) errorClient "mock" "eth_getBlockByNumber"
    (getBlockByNumberParams 1) "eth_getBlockByNumber" mockErrorBody
    (AList.insert "error" "\"Invalid request\"" ∅) "\"Invalid request\"" rfl rfl rfl rfl⟩

theorem callRPC_error_object_example :
    callRPC (mockCodec mockBlock) errorObjectClient "mock" "eth_getBlockByNumber"
        (getBlockByNumberParams 1) (fun _ => Except.ok mockBlock) =
      .error "RPC Error -32602: invalid argument" := by
  rfl

/-! ## The block number in the request -/

theorem hexDigit_mem : ∀ d, d < 16 → hexDigit d ∈ ldigits := by decide

theorem hexVal_hexDigit : ∀ d, d < 16 → hexVal (hexDigit d) = some d := by decide

theorem hexDigit_ne_zero : ∀ d, d < 16 → d ≠ 0 → hexDigit d ≠ '0' := by decide

theorem specHexDigits_of_lt (u : Nat) (h : u < 16) : specHexDigits u = [hexDigit u] := by
  unfold specHexDigits
  by_cases h0 : u = 0
  · subst h0; rfl
  · rw [if_neg h0, Nat.digits_of_lt 16 u h0 h]; rfl

theorem specHexDigits_of_ge (u : Nat) (h : 16 ≤ u) :
    specHexDigits u = specHexDigits (u / 16) ++ [hexDigit (u % 16)] := by
  have h0 : u ≠ 0 := by omega
  have hq : u / 16 ≠ 0 := by omega
  unfold specHexDigits
  rw [if_neg h0, if_neg hq, Nat.digits_def' (by norm_num) (by omega)]
  simp

theorem fmtHexLoop_eq (fuel : Nat) : ∀ (u : Nat) (buf : List Char), u < 16 ^ (fuel + 1) →
    fmtHexLoop fuel u buf = specHexDigits u ++ buf := by
  induction fuel with
  | zero =>
    intro u buf h
    have h16 : u < 16 := by simpa using h
    simp [fmtHexLoop, specHexDigits_of_lt u h16]
  | succ fuel ih =>
    intro u buf h
    by_cases hge : 16 ≤ u
    · have hq : u / 16 < 16 ^ (fuel + 1) := by
        rw [Nat.div_lt_iff_lt_mul (by norm_num)]
        calc u < 16 ^ (fuel + 1 + 1) := h
          _ = 16 ^ (fuel + 1) * 16 := by ring
      rw [fmtHexLoop, if_pos hge, ih (u / 16) _ hq, specHexDigits_of_ge u hge]
      simp
    · have h16 : u < 16 := by omega
      rw [fmtHexLoop, if_neg hge, specHexDigits_of_lt u h16]
      rfl

theorem fmtHex_eq (u : Nat) (h : u < 2 ^ 64) : fmtHex u = specHexDigits u := by
  have h2 : u < 16 ^ (16 + 1) := by
    have : (2:Nat) ^ 64 ≤ 16 ^ (16 + 1) := by norm_num
    omega
  simpa [fmtHex] using fmtHexLoop_eq 16 u [] h2

theorem readHex_digits (l : List Nat) (hl : ∀ d ∈ l, d < 16) :
    readHex (l.reverse.map hexDigit) = some (Nat.ofDigits 16 l) := by
  induction l with
  | nil => rfl
  | cons d l ih =>
    have hd : d < 16 := hl d (List.mem_cons_self _ _)
    have hrest : ∀ x ∈ l, x < 16 := fun x hx => hl x (List.mem_cons_of_mem _ hx)
    have ih2 := ih hrest
    unfold readHex at ih2 ⊢
    rw [List.reverse_cons, List.map_append, List.foldl_append, ih2]
    simp [hexVal_hexDigit d hd, Nat.ofDigits_cons]
    ring

theorem readHex_specHexDigits (u : Nat) : readHex (specHexDigits u) = some u := by
  unfold specHexDigits
  by_cases h0 : u = 0
  · subst h0; rfl
  · rw [if_neg h0, readHex_digits _ (fun d hd => Nat.digits_lt_base (by norm_num) hd),
      Nat.ofDigits_digits]

theorem specHexDigits_mem (u : Nat) : ∀ c ∈ specHexDigits u, c ∈ ldigits := by
  unfold specHexDigits
  by_cases h0 : u = 0
  · subst h0; decide
  · rw [if_neg h0]
    intro c hc
    simp only [List.mem_map, List.mem_reverse] at hc
    obtain ⟨d, hd, rfl⟩ := hc
    exact hexDigit_mem d (Nat.digits_lt_base (by norm_num) hd)

theorem specHexDigits_head (u : Nat) (h0 : u ≠ 0) : (specHexDigits u).head? ≠ some '0' := by
  unfold specHexDigits
  rw [if_neg h0]
  have hne : Nat.digits 16 u ≠ [] := Nat.digits_ne_nil_iff_ne_zero.mpr h0
  have hlast := Nat.getLast_digit_ne_zero 16 h0
  have hlt : (Nat.digits 16 u).getLast hne < 16 :=
    Nat.digits_lt_base (by norm_num) (List.getLast_mem hne)
  rw [List.head?_map, List.head?_reverse, List.getLast?_eq_getLast _ hne]
  simp only [Option.map_some', ne_eq, Option.some.injEq]
  exact hexDigit_ne_zero _ hlt hlast

theorem sprintf0x_data (n : Nat) : (sprintf0x n).data = '0' :: 'x' :: fmtHex n := rfl

theorem sprintf0x_examples :
    sprintf0x 0 = "0x0" ∧ sprintf0x 1 = "0x1" ∧ sprintf0x 255 = "0xff"
    ∧ sprintf0x 21000000 = "0x1406f40"
    ∧ sprintf0x 18446744073709551615 = "0xffffffffffffffff" := by
  decide

/-- C9: for a `uint64` block number `N` the request of `getBlockByNumber` has
method `eth_getBlockByNumber` and params `[h, true]`, where `h` is `0x` followed
by the lowercase hexadecimal digits of `N` without leading zeros (`0x0` for
zero); reading the digits of `h` in base 16 gives `N` back, and distinct block
numbers give distinct `h`. -/
theorem getBlockByNumber_request_hex (N : Nat) (hN : N < 2 ^ 64) :
    rpcPayload "eth_getBlockByNumber" (getBlockByNumberParams N) =
      { jsonrpc := "2.0", method := "eth_getBlockByNumber",
        params := [Param.str (sprintf0x N), Param.bool true], id := 1 }
    ∧ (∀ (json : Codec) (client : Client) (rpcURL : String),
        getBlockByNumber json client rpcURL N =
          callRPC json client rpcURL "eth_getBlockByNumber"
            [Param.str (sprintf0x N), Param.bool true] json.unmarshalBlock)
    ∧ (sprintf0x N).data = '0' :: 'x' :: specHexDigits N
    ∧ (∀ c ∈ specHexDigits N, c ∈ ldigits)
    ∧ (N = 0 → sprintf0x N = "0x0")
    ∧ (N ≠ 0 → (specHexDigits N).head? ≠ some '0')
    ∧ readHex ((sprintf0x N).data.drop 2) = some N
    ∧ (∀ M, M < 2 ^ 64 → sprintf0x M = sprintf0x N → M = N) := by
  have hdata : (sprintf0x N).data = '0' :: 'x' :: specHexDigits N := by
    rw [sprintf0x_data, fmtHex_eq N hN]
  refine ⟨rfl, fun _ _ _ => rfl, hdata, specHexDigits_mem N, ?_, specHexDigits_head N, ?_, ?_⟩
  · intro h0
    subst h0
    decide
  · rw [hdata]
    exact readHex_specHexDigits N
  · intro M hM heq
    have h1 : (sprintf0x M).data = (sprintf0x N).data := by rw [heq]
    rw [sprintf0x_data, sprintf0x_data, fmtHex_eq M hM, fmtHex_eq N hN] at h1
    have h2 : specHexDigits M = specHexDigits N := by
      simpa using h1
    have h3 := readHex_specHexDigits M
    rw [h2, readHex_specHexDigits N] at h3
    exact (Option.some.inj h3).symm

/-- An instance of the preceding theorem at block 21000000. -/
theorem getBlockByNumber_request_hex_witness :
    21000000 < 2 ^ 64
    ∧ rpcPayload "eth_getBlockByNumber" (getBlockByNumberParams 21000000) =
      { jsonrpc := "2.0", method := "eth_getBlockByNumber",
        params := [Param.str (sprintf0x 21000000), Param.bool true], id := 1 }
    ∧ readHex ((sprintf0x 21000000).data.drop 2) = some 21000000 :=
  ⟨by decide, (getBlockByNumber_request_hex 21000000 (by decide)).1,
    (getBlockByNumber_request_hex 21000000 (by decide)).2.2.2.2.2.2.1⟩

/-! ## Subscriptions -/

theorem Subscribe_of_mem (p : EthereumParser) (a : String) (h : a ∈ p.subscriptions) :
    Subscribe p a = (p, false) := by
  unfold Subscribe
  cases hl : p.subscriptions.lookup a with
  | none => exact absurd h (AList.lookup_eq_none.mp hl)
  | some v => rfl

theorem Subscribe_of_not_mem (p : EthereumParser) (a : String) (h : a ∉ p.subscriptions) :
    Subscribe p a =
      ({ p with subscriptions := p.subscriptions.insert a true }, true) := by
  unfold Subscribe
  rw [AList.lookup_eq_none.mpr h]

theorem subscribeAll_replicate_of_mem (p : EthereumParser) (a : String)
    (h : a ∈ p.subscriptions) (k : Nat) :
    subscribeAll p (List.replicate k a) = (p, List.replicate k false) := by
  induction k with
  | zero => rfl
  | succ k ih =>
    rw [List.replicate_succ, subscribeAll, Subscribe_of_mem p a h]
    simp [ih, List.replicate_succ]

theorem subscribeAll_replicate_succ (p : EthereumParser) (a : String) (k : Nat) :
    subscribeAll p (List.replicate (k + 1) a) =
      ((Subscribe p a).1, (Subscribe p a).2 :: List.replicate k false) := by
  have hmem : a ∈ (Subscribe p a).1.subscriptions := by
    by_cases h : a ∈ p.subscriptions
    · rw [Subscribe_of_mem p a h]; exact h
    · rw [Subscribe_of_not_mem p a h]; simp
  rw [List.replicate_succ, subscribeAll, subscribeAll_replicate_of_mem _ a hmem k]

theorem ParseBlock_subscriptions (json : Codec) (client : Client) (p : EthereumParser)
    (blockNumber : Nat) :
    (ParseBlock json client p blockNumber).1.subscriptions = p.subscriptions := by
  unfold ParseBlock
  cases getBlockByNumber json client p.rpcURL blockNumber <;> rfl

theorem mem_subscriptions_apply (p : EthereumParser) (op : Op) (a : String)
    (h : a ∈ p.subscriptions) : a ∈ (op.apply p).subscriptions := by
  cases op with
  | subscribe b =>
    simp only [Op.apply]
    by_cases hb : b ∈ p.subscriptions
    · rw [Subscribe_of_mem p b hb]; exact h
    · rw [Subscribe_of_not_mem p b hb]
      simp only [AList.mem_insert]
      exact Or.inr h
  | parseBlock json client blockNumber =>
    simp only [Op.apply, ParseBlock_subscriptions]
    exact h

theorem mem_subscriptions_foldl_apply (ops : List Op) (a : String) :
    ∀ p : EthereumParser, a ∈ p.subscriptions → a ∈ (ops.foldl Op.apply p).subscriptions := by
  induction ops with
  | nil => intro p h; exact h
  | cons op ops ih => intro p h; exact ih _ (mem_subscriptions_apply p op a h)

/-- C2: `Subscribe(a)` returns true exactly when `a` is not a key of the
subscription map before the call, and false when it is; after one or more
`Subscribe(a)` calls in a row `a` is a key, it occurs exactly once among the
keys, every call after the first has returned false, and on a store whose
stored flags are all true (every store the operations can produce) the map
yields true for `a`; and whatever calls follow a `Subscribe(a)`, `a` stays a
key that occurs once and a further `Subscribe(a)` returns false. -/
theorem Subscribe_first_true_then_false (p : EthereumParser) (a : String) :
    ((Subscribe p a).2 = true ↔ a ∉ p.subscriptions)
    ∧ ((Subscribe p a).2 = false ↔ a ∈ p.subscriptions)
    ∧ (∀ k : Nat,
        a ∈ (subscribeAll p (List.replicate (k + 1) a)).1.subscriptions
        ∧ (subscribeAll p (List.replicate (k + 1) a)).1.subscriptions.keys.count a = 1
        ∧ (subscribeAll p (List.replicate (k + 1) a)).2 =
            (Subscribe p a).2 :: List.replicate k false
        ∧ (FlagsTrue p →
            subIndex (subscribeAll p (List.replicate (k + 1) a)).1.subscriptions a = true))
    ∧ (∀ ops : List Op,
        a ∈ (ops.foldl Op.apply (Subscribe p a).1).subscriptions
        ∧ (ops.foldl Op.apply (Subscribe p a).1).subscriptions.keys.count a = 1
        ∧ (Subscribe (ops.foldl Op.apply (Subscribe p a).1) a).2 = false) := by
  have hret : (Subscribe p a).2 = true ↔ a ∉ p.subscriptions := by
    by_cases h : a ∈ p.subscriptions
    · rw [Subscribe_of_mem p a h]; simp [h]
    · rw [Subscribe_of_not_mem p a h]; simp [h]
  have hfirst : a ∈ (Subscribe p a).1.subscriptions := by
    by_cases h : a ∈ p.subscriptions
    · rw [Subscribe_of_mem p a h]; exact h
    · rw [Subscribe_of_not_mem p a h]; simp
  refine ⟨hret, ?_, ?_, ?_⟩
  · by_cases h : a ∈ p.subscriptions
    · rw [Subscribe_of_mem p a h]; simp [h]
    · rw [Subscribe_of_not_mem p a h]; simp [h]
  rotate_left
  · intro ops
    have hlater := mem_subscriptions_foldl_apply ops a (Subscribe p a).1 hfirst
    refine ⟨hlater, ?_, ?_⟩
    · exact List.count_eq_one_of_mem (AList.keys_nodup _) (AList.mem_keys.mp hlater)
    · rw [Subscribe_of_mem _ a hlater]
  · intro k
    rw [subscribeAll_replicate_succ]
    have hmem : a ∈ (Subscribe p a).1.subscriptions := by
      by_cases h : a ∈ p.subscriptions
      · rw [Subscribe_of_mem p a h]; exact h
      · rw [Subscribe_of_not_mem p a h]; simp
    refine ⟨hmem, ?_, rfl, ?_⟩
    · exact List.count_eq_one_of_mem (AList.keys_nodup _) (AList.mem_keys.mp hmem)
    · intro hflags
      by_cases h : a ∈ p.subscriptions
      · simp only [Subscribe_of_mem p a h]
        obtain ⟨v, hv⟩ := Option.isSome_iff_exists.mp (AList.lookup_isSome.mpr h)
        have := hflags a v hv
        subst this
        simp [subIndex, hv]
      · simp only [Subscribe_of_not_mem p a h]
        simp [subIndex]

/-- An instance of the preceding theorem on the store and address of
`TestEthereumParser_Subscribe`, three calls in a row. -/
theorem Subscribe_first_true_then_false_witness :
    (subscribeAll (NewEthereumParser "") (List.replicate (2 + 1) "0x1234")).1.subscriptions.keys.count
        "0x1234" = 1
    ∧ (subscribeAll (NewEthereumParser "") (List.replicate (2 + 1) "0x1234")).2 =
        (Subscribe (NewEthereumParser "") "0x1234").2 :: List.replicate 2 false
    ∧ (Subscribe (NewEthereumParser "") "0x1234").2 = true
    ∧ subIndex (subscribeAll (NewEthereumParser "")
        (List.replicate (2 + 1) "0x1234")).1.subscriptions "0x1234" = true :=
  ⟨((Subscribe_first_true_then_false (NewEthereumParser "") "0x1234").2.2.1 2).2.1,
    ((Subscribe_first_true_then_false (NewEthereumParser "") "0x1234").2.2.1 2).2.2.1,
    by decide,
    ((Subscribe_first_true_then_false (NewEthereumParser "") "0x1234").2.2.1 2).2.2.2
      (by intro a v h; simp [NewEthereumParser] at h)⟩

/-! ## Stores reached from a fresh one -/

theorem Subscribe_transactions (p : EthereumParser) (a : String) :
    (Subscribe p a).1.transactions = p.transactions := by
  unfold Subscribe
  cases p.subscriptions.lookup a <;> rfl

theorem Subscribe_flagsTrue (p : EthereumParser) (b : String) (h : FlagsTrue p) :
    FlagsTrue (Subscribe p b).1 := by
  by_cases hb : b ∈ p.subscriptions
  · rw [Subscribe_of_mem p b hb]; exact h
  · rw [Subscribe_of_not_mem p b hb]
    intro a v hv
    by_cases hab : a = b
    · subst hab
      simpa using hv.symm
    · simp only [AList.lookup_insert_ne hab] at hv
      exact h a v hv

theorem apply_flagsTrue (p : EthereumParser) (op : Op) (h : FlagsTrue p) :
    FlagsTrue (op.apply p) := by
  cases op with
  | subscribe b => exact Subscribe_flagsTrue p b h
  | parseBlock json client blockNumber =>
    intro a v hv
    simp only [Op.apply, ParseBlock_subscriptions] at hv
    exact h a v hv

theorem foldl_apply_flagsTrue (ops : List Op) :
    ∀ p : EthereumParser, FlagsTrue p → FlagsTrue (ops.foldl Op.apply p) := by
  induction ops with
  | nil => intro p h; exact h
  | cons op ops ih => intro p h; exact ih _ (apply_flagsTrue p op h)

theorem run_flagsTrue (rpcURL : String) (ops : List Op) : FlagsTrue (run rpcURL ops) := by
  apply foldl_apply_flagsTrue
  intro a v hv
  simp [NewEthereumParser] at hv

theorem subIndex_eq_true_iff_mem (p : EthereumParser) (h : FlagsTrue p) (a : String) :
    subIndex p.subscriptions a = true ↔ a ∈ p.subscriptions := by
  constructor
  · intro hs
    rw [← AList.lookup_isSome]
    unfold subIndex at hs
    cases hl : p.subscriptions.lookup a with
    | none => simp [hl] at hs
    | some v => rfl
  · intro hm
    obtain ⟨v, hv⟩ := Option.isSome_iff_exists.mp (AList.lookup_isSome.mpr hm)
    have := h a v hv
    subst this
    simp [subIndex, hv]

theorem recordTx_of_unsubscribed (subs : GoMap Bool) (txs : GoMap (List Transaction))
    (tx : Transaction) (hfrom : subIndex subs tx.From = false)
    (hto : subIndex subs tx.To = false) : recordTx subs txs tx = txs := by
  simp [recordTx, hfrom, hto]

theorem GetTransactions_apply_of_not_matched (a : String) (p : EthereumParser) (op : Op)
    (hempty : GetTransactions p a = []) (hno : op.matchedAt p a = false) :
    GetTransactions (op.apply p) a = [] := by
  cases op with
  | subscribe b =>
    simp only [Op.apply, GetTransactions, Subscribe_transactions]
    exact hempty
  | parseBlock json client blockNumber =>
    simp only [Op.apply]
    simp only [Op.matchedAt] at hno
    cases hfetch : getBlockByNumber json client p.rpcURL blockNumber with
    | error err =>
      simp only [ParseBlock, hfetch]
      exact hempty
    | ok block =>
      rw [hfetch] at hno
      rw [ParseBlock_ok json client p blockNumber block hfetch,
        GetTransactions_commitBlock, hempty, List.nil_append]
      apply flatMap_contribution_nil
      intro tx htx hboth
      have hany : block.Transactions.any (touches a) = true :=
        List.any_eq_true.mpr ⟨tx, htx, hboth.1⟩
      simp [hboth.2, hany] at hno

theorem GetTransactions_foldl_of_not_matched (a : String) (ops : List Op) :
    ∀ p : EthereumParser, GetTransactions p a = [] → everMatched a p ops = false →
      GetTransactions (ops.foldl Op.apply p) a = [] := by
  induction ops with
  | nil => intro p h _; exact h
  | cons op ops ih =>
    intro p hempty hno
    simp only [everMatched, Bool.or_eq_false_iff] at hno
    exact ih _ (GetTransactions_apply_of_not_matched a p op hempty hno.1) hno.2

theorem everMatched_of_never_subscribed (a : String) (ops : List Op) :
    ∀ p : EthereumParser, a ∉ p.subscriptions →
      (∀ op ∈ ops, op.isSubscribe a = false) → everMatched a p ops = false := by
  induction ops with
  | nil => intro p _ _; rfl
  | cons op ops ih =>
    intro p hnot hnever
    have hop : op.isSubscribe a = false := hnever op (List.mem_cons_self _ _)
    have hrest : ∀ o ∈ ops, o.isSubscribe a = false :=
      fun o ho => hnever o (List.mem_cons_of_mem _ ho)
    have hsub : subIndex p.subscriptions a = false := by
      simp [subIndex, AList.lookup_eq_none.mpr hnot]
    have hnot2 : a ∉ (op.apply p).subscriptions := by
      cases op with
      | subscribe b =>
        have hab : ¬ b = a := by simpa [Op.isSubscribe] using hop
        simp only [Op.apply]
        by_cases hb : b ∈ p.subscriptions
        · rw [Subscribe_of_mem p b hb]; exact hnot
        · rw [Subscribe_of_not_mem p b hb]
          simp only [AList.mem_insert]
          intro h
          rcases h with h | h
          · exact hab h.symm
          · exact hnot h
      | parseBlock json client blockNumber =>
        simp only [Op.apply, ParseBlock_subscriptions]
        exact hnot
    have hhead : op.matchedAt p a = false := by
      cases op with
      | subscribe b => rfl
      | parseBlock json client blockNumber =>
        simp only [Op.matchedAt]
        cases getBlockByNumber json client p.rpcURL blockNumber <;> simp [hsub]
    simp only [everMatched, hhead, Bool.false_or]
    exact ih _ hnot2 hrest

/-- C6: in the store reached from a fresh one by any sequence of `Subscribe`
and `ParseBlock` calls, `GetTransactions(a)` is the empty sequence for every
address `a` that no call subscribed, and for every address `a` for which no
successfully fetched block held a transaction from or to `a` while `a` was
subscribed; and the loop of `ParseBlock` leaves the history map as it is at a
transaction whose sender and recipient are both unsubscribed. -/
theorem GetTransactions_empty_unless_matched (rpcURL : String) (ops : List Op) (a : String) :
    ((∀ op ∈ ops, op.isSubscribe a = false) → GetTransactions (run rpcURL ops) a = [])
    ∧ (everMatched a (NewEthereumParser rpcURL) ops = false →
        GetTransactions (run rpcURL ops) a = [])
    ∧ (∀ (txs : GoMap (List Transaction)) (tx : Transaction),
        subIndex (run rpcURL ops).subscriptions tx.From = false →
        subIndex (run rpcURL ops).subscriptions tx.To = false →
        recordTx (run rpcURL ops).subscriptions txs tx = txs) := by
  have hmatched : everMatched a (NewEthereumParser rpcURL) ops = false →
      GetTransactions (run rpcURL ops) a = [] :=
    GetTransactions_foldl_of_not_matched a ops (NewEthereumParser rpcURL) rfl
  refine ⟨?_, hmatched, ?_⟩
  · intro hnever
    apply hmatched
    apply everMatched_of_never_subscribed a ops _ _ hnever
    simp [NewEthereumParser]
  · intro txs tx hfrom hto
    exact recordTx_of_unsubscribed _ txs tx hfrom hto

/-- An instance of the preceding theorem: in `TestParseBlock` with the
recipient left unsubscribed and a third address subscribed, the recipient was
never subscribed and the third address never matched. -/
theorem GetTransactions_empty_unless_matched_witness :
    (∀ op ∈ [Op.subscribe "0x1234", Op.subscribe "0x9999",
        Op.parseBlock (mockCodec mockBlock) mockClient 1], op.isSubscribe "0x5678" = false)
    ∧ GetTransactions (run "mock" [Op.subscribe "0x1234", Op.subscribe "0x9999",
        Op.parseBlock (mockCodec mockBlock) mockClient 1]) "0x5678" = []
    ∧ everMatched "0x9999" (NewEthereumParser "mock") [Op.subscribe "0x1234",
        Op.subscribe "0x9999", Op.parseBlock (mockCodec mockBlock) mockClient 1] = false
    ∧ GetTransactions (run "mock" [Op.subscribe "0x1234", Op.subscribe "0x9999",
        Op.parseBlock (mockCodec mockBlock) mockClient 1]) "0x9999" = []
    ∧ GetTransactions (run "mock" [Op.subscribe "0x1234", Op.subscribe "0x9999",
        Op.parseBlock (mockCodec mockBlock) mockClient 1]) "0x1234" = [mockTx] :=
  ⟨by decide,
    (GetTransactions_empty_unless_matched "mock" [Op.subscribe "0x1234", Op.subscribe "0x9999",
      Op.parseBlock (mockCodec mockBlock) mockClient 1] "0x5678").1 (by decide),
    by rfl,
    (GetTransactions_empty_unless_matched "mock" [Op.subscribe "0x1234", Op.subscribe "0x9999",
      Op.parseBlock (mockCodec mockBlock) mockClient 1] "0x9999").2.1 (by rfl),
    by decide⟩

/-! ## Concurrent `Subscribe` calls -/

theorem subscribeAll_append (p : EthereumParser) (l₁ l₂ : List String) :
    (subscribeAll p (l₁ ++ l₂)).1 = (subscribeAll (subscribeAll p l₁).1 l₂).1 := by
  induction l₁ generalizing p with
  | nil => rfl
  | cons a l ih => simp [subscribeAll, ih]

theorem LockInv_init (p : EthereumParser) (addrs : List String)
    (hnew : ∀ a ∈ addrs, a ∉ p.subscriptions) : LockInv p addrs (Sys.init p) where
  pending := fun i a ha _ => hnew a (List.mem_iff_getElem?.mpr ⟨i, ha⟩)
  stored := by
    intro i a ret _ h
    simp [Sys.init] at h
  free := fun _ _ => rfl
  exclusive := by
    intro i j h
    simp [Sys.init, Pc.critical] at h
  serial := ⟨[], List.nodup_nil, by simp [Sys.init], rfl⟩

theorem addr_ne_of_index_ne (addrs : List String) (hdistinct : addrs.Nodup) (i j : Nat)
    (a b : String) (ha : addrs[i]? = some a) (hb : addrs[j]? = some b) (hij : i ≠ j) :
    a ≠ b := by
  intro hab
  subst hab
  have hi : i < addrs.length := by
    by_contra hlt
    rw [List.getElem?_eq_none (by omega)] at ha
    exact Option.noConfusion ha
  exact hij (List.getElem?_inj hi hdistinct (ha.trans hb.symm))

theorem LockInv_acquire (p : EthereumParser) (addrs : List String) (s : Sys) (i : Nat)
    (hinv : LockInv p addrs s) (hpc : s.pc i = Pc.atLock) (hfree : s.locked = false) :
    LockInv p addrs { s with locked := true, pc := Function.update s.pc i Pc.atCheck } where
  pending := by
    intro j b hb hj
    by_cases hji : j = i
    · subst hji
      exact hinv.pending j b hb (Or.inl hpc)
    · simp only [Function.update_noteq hji] at hj
      exact hinv.pending j b hb hj
  stored := by
    intro j b ret hb hj
    by_cases hji : j = i
    · subst hji
      simp at hj
    · simp only [Function.update_noteq hji] at hj
      exact hinv.stored j b ret hb hj
  free := by
    intro h
    simp at h
  exclusive := by
    intro j k hj hk
    have hnone := hinv.free hfree
    have hj2 : j = i := by
      by_contra hji
      simp only [Function.update_noteq hji] at hj
      rw [hnone j] at hj
      exact Bool.noConfusion hj
    have hk2 : k = i := by
      by_contra hki
      simp only [Function.update_noteq hki] at hk
      rw [hnone k] at hk
      exact Bool.noConfusion hk
    rw [hj2, hk2]
  serial := by
    obtain ⟨order, hnd, hmem, hstore⟩ := hinv.serial
    refine ⟨order, hnd, ?_, hstore⟩
    intro b
    rw [hmem b]
    constructor
    · rintro ⟨j, ret, hb, hj⟩
      refine ⟨j, ret, hb, ?_⟩
      have hji : j ≠ i := by
        rintro rfl
        rw [hpc] at hj
        simp at hj
      simpa only [Function.update_noteq hji] using hj
    · rintro ⟨j, ret, hb, hj⟩
      refine ⟨j, ret, hb, ?_⟩
      have hji : j ≠ i := by
        rintro rfl
        simp at hj
      simpa only [Function.update_noteq hji] using hj

theorem LockInv_check (p : EthereumParser) (addrs : List String) (s : Sys) (i : Nat)
    (hinv : LockInv p addrs s) (hpc : s.pc i = Pc.atCheck) :
    LockInv p addrs { s with pc := Function.update s.pc i Pc.atStore } where
  pending := by
    intro j b hb hj
    by_cases hji : j = i
    · subst hji
      exact hinv.pending j b hb (Or.inr (Or.inl hpc))
    · simp only [Function.update_noteq hji] at hj
      exact hinv.pending j b hb hj
  stored := by
    intro j b ret hb hj
    by_cases hji : j = i
    · subst hji
      simp at hj
    · simp only [Function.update_noteq hji] at hj
      exact hinv.stored j b ret hb hj
  free := by
    intro h
    have := hinv.free h i
    rw [hpc] at this
    exact Bool.noConfusion this
  exclusive := by
    intro j k hj hk
    have hcrit : ∀ m, (Function.update s.pc i Pc.atStore m).critical = true →
        (s.pc m).critical = true := by
      intro m hm
      by_cases hmi : m = i
      · subst hmi
        rw [hpc]
        rfl
      · simpa only [Function.update_noteq hmi] using hm
    exact hinv.exclusive j k (hcrit j hj) (hcrit k hk)
  serial := by
    obtain ⟨order, hnd, hmem, hstore⟩ := hinv.serial
    refine ⟨order, hnd, ?_, hstore⟩
    intro b
    rw [hmem b]
    constructor
    · rintro ⟨j, ret, hb, hj⟩
      refine ⟨j, ret, hb, ?_⟩
      have hji : j ≠ i := by
        rintro rfl
        rw [hpc] at hj
        simp at hj
      simpa only [Function.update_noteq hji] using hj
    · rintro ⟨j, ret, hb, hj⟩
      refine ⟨j, ret, hb, ?_⟩
      have hji : j ≠ i := by
        rintro rfl
        simp at hj
      simpa only [Function.update_noteq hji] using hj

theorem LockInv_store (p : EthereumParser) (addrs : List String) (hdistinct : addrs.Nodup)
    (s : Sys) (i : Nat) (a : String) (ha : addrs[i]? = some a)
    (hinv : LockInv p addrs s) (hpc : s.pc i = Pc.atStore) :
    LockInv p addrs { s with
      store := { s.store with subscriptions := s.store.subscriptions.insert a true }
      pc := Function.update s.pc i (Pc.atUnlock true) } where
  pending := by
    intro j b hb hj
    by_cases hji : j = i
    · subst hji
      simp at hj
    · simp only [Function.update_noteq hji] at hj
      have hold := hinv.pending j b hb hj
      have hne : b ≠ a := addr_ne_of_index_ne addrs hdistinct j i b a hb ha hji
      simp only [AList.mem_insert]
      rintro (h | h)
      · exact hne h
      · exact hold h
  stored := by
    intro j b ret hb hj
    by_cases hji : j = i
    · subst hji
      have hba : b = a := Option.some.inj (hb.symm.trans ha)
      simp only [Function.update_same] at hj
      refine ⟨?_, ?_⟩
      · rcases hj with h | h
        · exact (Pc.atUnlock.inj h).symm
        · exact Pc.noConfusion h
      · simp [hba]
    · simp only [Function.update_noteq hji] at hj
      obtain ⟨hret, hin⟩ := hinv.stored j b ret hb hj
      exact ⟨hret, by simp only [AList.mem_insert]; exact Or.inr hin⟩
  free := by
    intro h
    have := hinv.free h i
    rw [hpc] at this
    exact Bool.noConfusion this
  exclusive := by
    intro j k hj hk
    have hcrit : ∀ m, (Function.update s.pc i (Pc.atUnlock true) m).critical = true →
        (s.pc m).critical = true := by
      intro m hm
      by_cases hmi : m = i
      · subst hmi
        rw [hpc]
        rfl
      · simpa only [Function.update_noteq hmi] using hm
    exact hinv.exclusive j k (hcrit j hj) (hcrit k hk)
  serial := by
    obtain ⟨order, hnd, hmem, hstore⟩ := hinv.serial
    have hnotin : a ∉ order := by
      intro hin
      obtain ⟨j, ret, hb, hj⟩ := (hmem a).mp hin
      by_cases hji : j = i
      · subst hji
        rw [hpc] at hj
        simp at hj
      · exact addr_ne_of_index_ne addrs hdistinct j i a a hb ha hji rfl
    have hfresh : a ∉ s.store.subscriptions := hinv.pending i a ha (Or.inr (Or.inr hpc))
    refine ⟨order ++ [a], ?_, ?_, ?_⟩
    · rw [List.nodup_append]
      refine ⟨hnd, List.nodup_singleton a, ?_⟩
      intro x hx hx2
      rw [List.mem_singleton] at hx2
      subst hx2
      exact hnotin hx
    · intro b
      rw [List.mem_append, List.mem_singleton, hmem b]
      constructor
      · rintro (⟨j, ret, hb, hj⟩ | hba)
        · refine ⟨j, ret, hb, ?_⟩
          have hji : j ≠ i := by
            rintro rfl
            rw [hpc] at hj
            simp at hj
          simpa only [Function.update_noteq hji] using hj
        · subst hba
          exact ⟨i, true, ha, Or.inl (by simp)⟩
      · rintro ⟨j, ret, hb, hj⟩
        by_cases hji : j = i
        · subst hji
          exact Or.inr (Option.some.inj (hb.symm.trans ha))
        · simp only [Function.update_noteq hji] at hj
          exact Or.inl ⟨j, ret, hb, hj⟩
    · rw [subscribeAll_append, ← hstore]
      simp only [subscribeAll]
      rw [Subscribe_of_not_mem s.store a hfresh]

theorem LockInv_unlock (p : EthereumParser) (addrs : List String) (s : Sys) (i : Nat)
    (ret : Bool) (hinv : LockInv p addrs s) (hpc : s.pc i = Pc.atUnlock ret) :
    LockInv p addrs { s with locked := false, pc := Function.update s.pc i (Pc.done ret) } where
  pending := by
    intro j b hb hj
    by_cases hji : j = i
    · subst hji
      simp at hj
    · simp only [Function.update_noteq hji] at hj
      exact hinv.pending j b hb hj
  stored := by
    intro j b r hb hj
    by_cases hji : j = i
    · subst hji
      simp only [Function.update_same] at hj
      have hr : ret = r := by
        rcases hj with h | h
        · exact Pc.noConfusion h
        · exact Pc.done.inj h
      subst hr
      exact hinv.stored j b ret hb (Or.inl hpc)
    · simp only [Function.update_noteq hji] at hj
      exact hinv.stored j b r hb hj
  free := by
    intro _ j
    by_cases hji : j = i
    · subst hji
      simp [Pc.critical]
    · simp only [Function.update_noteq hji]
      cases hc : (s.pc j).critical with
      | false => rfl
      | true =>
        have hi : (s.pc i).critical = true := by rw [hpc]; rfl
        exact absurd (hinv.exclusive j i hc hi) hji
  exclusive := by
    intro j k hj hk
    have hi : (s.pc i).critical = true := by rw [hpc]; rfl
    have hcrit : ∀ m, (Function.update s.pc i (Pc.done ret) m).critical = true → False := by
      intro m hm
      by_cases hmi : m = i
      · subst hmi
        simp [Pc.critical] at hm
      · simp only [Function.update_noteq hmi] at hm
        exact hmi (hinv.exclusive m i hm hi)
    exact (hcrit j hj).elim
  serial := by
    obtain ⟨order, hnd, hmem, hstore⟩ := hinv.serial
    refine ⟨order, hnd, ?_, hstore⟩
    intro b
    rw [hmem b]
    constructor
    · rintro ⟨j, r, hb, hj⟩
      by_cases hji : j = i
      · subst hji
        exact ⟨j, ret, hb, Or.inr (by simp)⟩
      · exact ⟨j, r, hb, by simpa only [Function.update_noteq hji] using hj⟩
    · rintro ⟨j, r, hb, hj⟩
      by_cases hji : j = i
      · subst hji
        exact ⟨j, ret, hb, Or.inl hpc⟩
      · exact ⟨j, r, hb, by simpa only [Function.update_noteq hji] using hj⟩

theorem LockInv_step (p : EthereumParser) (addrs : List String) (hdistinct : addrs.Nodup)
    (s : Sys) (i : Nat) (hinv : LockInv p addrs s) : LockInv p addrs (step addrs s i) := by
  unfold step
  cases ha : addrs[i]? with
  | none => exact hinv
  | some a =>
    simp only
    unfold stepCall
    cases hpc : s.pc i with
    | atLock =>
      cases hl : s.locked with
      | true => simpa using hinv
      | false =>
        simpa using LockInv_acquire p addrs s i hinv hpc hl
    | atCheck =>
      have hfresh : a ∉ s.store.subscriptions := hinv.pending i a ha (Or.inr (Or.inl hpc))
      simp only [AList.lookup_eq_none.mpr hfresh, Option.getD_some]
      exact LockInv_check p addrs s i hinv hpc
    | atStore =>
      simp only [Option.getD_some]
      exact LockInv_store p addrs hdistinct s i a ha hinv hpc
    | atUnlock ret =>
      simp only [Option.getD_some]
      exact LockInv_unlock p addrs s i ret hinv hpc
    | done ret => simpa using hinv

theorem LockInv_exec (p : EthereumParser) (addrs : List String) (hdistinct : addrs.Nodup)
    (sched : List Nat) : ∀ s : Sys, LockInv p addrs s → LockInv p addrs (exec addrs s sched) := by
  induction sched with
  | nil => intro s h; exact h
  | cons i rest ih =>
    intro s h
    exact ih _ (LockInv_step p addrs hdistinct s i h)

theorem exec_one_call (addrs : List String) (s : Sys) (i : Nat) (a : String)
    (ha : addrs[i]? = some a) (hfree : s.locked = false) (hpc : s.pc i = Pc.atLock) :
    (exec addrs s [i, i, i, i]).locked = false
    ∧ (∃ ret, (exec addrs s [i, i, i, i]).pc i = Pc.done ret)
    ∧ ∀ j, j ≠ i → (exec addrs s [i, i, i, i]).pc j = s.pc j := by
  cases hl : s.store.subscriptions.lookup a with
  | none =>
    refine ⟨?_, ⟨true, ?_⟩, ?_⟩
    · simp [exec, step, stepCall, ha, hfree, hpc, hl]
    · simp [exec, step, stepCall, ha, hfree, hpc, hl]
    · intro j hj
      simp [exec, step, stepCall, ha, hfree, hpc, hl, Function.update_noteq hj]
  | some v =>
    refine ⟨?_, ⟨false, ?_⟩, ?_⟩
    · simp [exec, step, stepCall, ha, hfree, hpc, hl]
    · simp [exec, step, stepCall, ha, hfree, hpc, hl]
    · intro j hj
      simp [exec, step, stepCall, ha, hfree, hpc, hl, Function.update_noteq hj]

theorem serialSchedule_succ (k : Nat) :
    serialSchedule (k + 1) = serialSchedule k ++ [k, k, k, k] := by
  simp [serialSchedule, List.range_succ, List.flatMap_append]

theorem exec_append (addrs : List String) (s : Sys) (l₁ l₂ : List Nat) :
    exec addrs s (l₁ ++ l₂) = exec addrs (exec addrs s l₁) l₂ := by
  simp [exec, List.foldl_append]

theorem exec_serialSchedule (addrs : List String) (p : EthereumParser) (k : Nat)
    (hk : k ≤ addrs.length) :
    (exec addrs (Sys.init p) (serialSchedule k)).locked = false
    ∧ (∀ i, i < k → ∃ ret, (exec addrs (Sys.init p) (serialSchedule k)).pc i = Pc.done ret)
    ∧ (∀ i, k ≤ i → (exec addrs (Sys.init p) (serialSchedule k)).pc i = Pc.atLock) := by
  induction k with
  | zero =>
    refine ⟨rfl, ?_, fun _ _ => rfl⟩
    intro i hi
    exact absurd hi (Nat.not_lt_zero i)
  | succ k ih =>
    obtain ⟨hfree, hdone, hrest⟩ := ih (by omega)
    have hlt : k < addrs.length := by omega
    have ha : addrs[k]? = some addrs[k] := List.getElem?_eq_getElem hlt
    obtain ⟨h1, h2, h3⟩ := exec_one_call addrs _ k _ ha hfree (hrest k (Nat.le_refl k))
    rw [serialSchedule_succ, exec_append]
    refine ⟨h1, ?_, ?_⟩
    · intro i hi
      by_cases hik : i = k
      · subst hik
        exact h2
      · rw [h3 i hik]
        exact hdone i (by omega)
    · intro i hi
      rw [h3 i (by omega)]
      exact hrest i (by omega)

theorem subscribeAll_distinct (l : List String) :
    ∀ p : EthereumParser, l.Nodup → (∀ a ∈ l, a ∉ p.subscriptions) →
      (subscribeAll p l).2 = List.replicate l.length true
      ∧ ∀ a, a ∈ (subscribeAll p l).1.subscriptions ↔ a ∈ l ∨ a ∈ p.subscriptions := by
  induction l with
  | nil =>
    intro p _ _
    simp [subscribeAll]
  | cons b rest ih =>
    intro p hnd hnew
    have hb : b ∉ p.subscriptions := hnew b (List.mem_cons_self _ _)
    obtain ⟨hbrest, hndrest⟩ := List.nodup_cons.mp hnd
    have hnew2 : ∀ a ∈ rest, a ∉ (Subscribe p b).1.subscriptions := by
      intro a ha
      rw [Subscribe_of_not_mem p b hb]
      simp only [AList.mem_insert]
      rintro (h | h)
      · exact hbrest (h ▸ ha)
      · exact hnew a (List.mem_cons_of_mem _ ha) h
    obtain ⟨hres, hmem⟩ := ih (Subscribe p b).1 hndrest hnew2
    simp only [subscribeAll]
    refine ⟨?_, ?_⟩
    · rw [hres, Subscribe_of_not_mem p b hb]
      simp [List.replicate_succ]
    · intro a
      rw [hmem a, Subscribe_of_not_mem p b hb]
      simp only [AList.mem_insert, List.mem_cons]
      tauto

/-- C10: for calls `Subscribe(addrs[i])` with pairwise distinct addresses, none
subscribed yet, running concurrently under the lock: after every interleaving of
their steps at most one call is between its `Lock` and its `Unlock`, every call
that has returned has returned true with its address present, and once all have
returned every address is present and the store is the one left by running the
calls one after the other in some order; the calls can all return; and for
every order in which the calls are serialised every call returns true and every
address is present at the end. -/
theorem Subscribe_concurrent_distinct (p : EthereumParser) (addrs : List String)
    (hdistinct : addrs.Nodup) (hnew : ∀ a ∈ addrs, a ∉ p.subscriptions) :
    (∀ sched : List Nat,
        (∀ i j, ((exec addrs (Sys.init p) sched).pc i).critical = true →
          ((exec addrs (Sys.init p) sched).pc j).critical = true → i = j)
        ∧ (∀ i a ret, addrs[i]? = some a →
            (exec addrs (Sys.init p) sched).pc i = Pc.done ret →
            ret = true ∧ a ∈ (exec addrs (Sys.init p) sched).store.subscriptions)
        ∧ ((∀ i, i < addrs.length →
              ∃ ret, (exec addrs (Sys.init p) sched).pc i = Pc.done ret) →
            (∀ a ∈ addrs, a ∈ (exec addrs (Sys.init p) sched).store.subscriptions)
            ∧ ∃ order : List String, order.Perm addrs
                ∧ (exec addrs (Sys.init p) sched).store = (subscribeAll p order).1))
    ∧ (∀ i, i < addrs.length →
        ∃ ret, (exec addrs (Sys.init p) (serialSchedule addrs.length)).pc i = Pc.done ret)
    ∧ (∀ order : List String, order.Perm addrs →
        (subscribeAll p order).2 = List.replicate order.length true
        ∧ ∀ a ∈ addrs, a ∈ (subscribeAll p order).1.subscriptions) := by
  refine ⟨?_, (exec_serialSchedule addrs p addrs.length (Nat.le_refl _)).2.1, ?_⟩
  · intro sched
    have hinv := LockInv_exec p addrs hdistinct sched (Sys.init p) (LockInv_init p addrs hnew)
    refine ⟨hinv.exclusive, ?_, ?_⟩
    · intro i a ret ha hdone
      exact hinv.stored i a ret ha (Or.inr hdone)
    · intro hall
      have hpresent : ∀ a ∈ addrs, a ∈ (exec addrs (Sys.init p) sched).store.subscriptions := by
        intro a hmem
        obtain ⟨i, hi⟩ := List.mem_iff_getElem?.mp hmem
        have hlt : i < addrs.length := by
          by_contra hge
          rw [List.getElem?_eq_none (by omega)] at hi
          exact Option.noConfusion hi
        obtain ⟨ret, hret⟩ := hall i hlt
        exact (hinv.stored i a ret hi (Or.inr hret)).2
      refine ⟨hpresent, ?_⟩
      obtain ⟨order, hnd, hmem, hstore⟩ := hinv.serial
      refine ⟨order, ?_, hstore⟩
      rw [List.perm_ext_iff_of_nodup hnd hdistinct]
      intro a
      rw [hmem a]
      constructor
      · rintro ⟨i, _, hi, _⟩
        exact List.mem_iff_getElem?.mpr ⟨i, hi⟩
      · intro ha
        obtain ⟨i, hi⟩ := List.mem_iff_getElem?.mp ha
        have hlt : i < addrs.length := by
          by_contra hge
          rw [List.getElem?_eq_none (by omega)] at hi
          exact Option.noConfusion hi
        obtain ⟨ret, hret⟩ := hall i hlt
        exact ⟨i, ret, hi, Or.inr hret⟩
  · intro order hperm
    have hnd : order.Nodup := hperm.nodup_iff.mpr hdistinct
    have hnew2 : ∀ a ∈ order, a ∉ p.subscriptions := fun a ha => hnew a (hperm.mem_iff.mp ha)
    obtain ⟨hres, hmem⟩ := subscribeAll_distinct order p hnd hnew2
    refine ⟨hres, ?_⟩
    intro a ha
    exact (hmem a).mpr (Or.inl (hperm.mem_iff.mpr ha))

/-- An instance of the preceding theorem: three calls on a fresh store under a
schedule in which waiting calls are picked while another call holds the lock. -/
theorem Subscribe_concurrent_distinct_witness :
    raceAddrs.Nodup
    ∧ (∀ a ∈ raceAddrs, a ∉ (NewEthereumParser "").subscriptions)
    ∧ (∀ i, i < raceAddrs.length →
        (exec raceAddrs (Sys.init (NewEthereumParser "")) raceSchedule).pc i = Pc.done true)
    ∧ (exec raceAddrs (Sys.init (NewEthereumParser "")) raceSchedule).store.subscriptions.keys =
        ["0x3333", "0x1111", "0x2222"]
    ∧ ((∀ a ∈ raceAddrs,
          a ∈ (exec raceAddrs (Sys.init (NewEthereumParser "")) raceSchedule).store.subscriptions)
      ∧ ∃ order : List String, order.Perm raceAddrs
          ∧ (exec raceAddrs (Sys.init (NewEthereumParser "")) raceSchedule).store =
              (subscribeAll (NewEthereumParser "") order).1) :=
  ⟨by decide, by decide, by decide, by decide,
    ((Subscribe_concurrent_distinct (NewEthereumParser "") raceAddrs (by decide)
      (by decide)).1 raceSchedule).2.2
      (fun i hi => ⟨true, (by decide : ∀ i, i < raceAddrs.length →
        (exec raceAddrs (Sys.init (NewEthereumParser "")) raceSchedule).pc i = Pc.done true)
        i hi⟩)⟩

end Parser
